import Mathlib

/-!
Verification of the manifold-llm-betting decision engine, session loop,
market filter and betting sinks.

The Python sources are shallowly embedded over ℚ:
* Python floats are modelled as exact rationals (none of the properties
  checked here hinge on binary rounding of float literals);
* a Python division is embedded as the checked division `qdiv?`, so an
  uncaught `ZeroDivisionError` is modelled by the value `none` of an
  `Option`-typed result;
* Python `round` (banker's rounding, ties to the even integer) is
  `pyRound`;
* the global `exit_flag`, the dry-run toggle and the success of the HTTP
  bet call are inputs to the embedded functions (they are the only
  external state the embedded code reads).

Three decision-engine variants are embedded, one per script:
`geminiDecide` (manifold_gemini_autobet.py), `unifiedDecide`
(unified_manifold_api.py) and `modularDecide`
(modular_manifold_bettor.py).
-/

namespace ManifoldBet

/-- Checked division: Python `a / b`, which raises `ZeroDivisionError`
(modelled as `none`) when `b` is zero. -/
def qdiv? (a b : ℚ) : Option ℚ :=
  if b = 0 then none else some (a / b)

/-- Python `round` with no digits argument on an exact rational:
round half to even (banker's rounding). -/
def pyRound (x : ℚ) : ℤ :=
  if x - (⌊x⌋ : ℚ) < 1 / 2 then ⌊x⌋
  else if 1 / 2 < x - (⌊x⌋ : ℚ) then ⌊x⌋ + 1
  else if ⌊x⌋ % 2 = 0 then ⌊x⌋ else ⌊x⌋ + 1

/-- Confidence labels returned by the model, `{Low, Medium, High}`. -/
inductive Confidence : Type
  | Low
  | Medium
  | High
deriving DecidableEq, Repr

/-- The ordinal rank of a confidence label (Low < Medium < High). -/
def Confidence.rank : Confidence → Nat
  | .Low => 0
  | .Medium => 1
  | .High => 2

/-- The list `MINIMUM_CONFIDENCE_TO_BET = [args.min_confidence, "High"]`
(manifold_gemini_autobet.py line 31). -/
def minimumConfidenceToBet (minConf : Confidence) : List Confidence :=
  [minConf, .High]

/-- Side of a binary bet, the `outcome` string `"YES"`/`"NO"`. -/
inductive Side : Type
  | YES
  | NO
deriving DecidableEq, Repr

/-- The reason a loop iteration skips a market without betting.  Each
constructor corresponds to one `continue`/skip path of the loop body. -/
inductive Reason : Type
  | belowConfidence
  | insufficientEdge
  | degenerateOdds
  | nonProfitableOdds
  | nonPositiveKelly
  | stakeBelowMin
deriving DecidableEq, Repr

/-- The action a decision-engine variant takes on one market: place a bet
(recording the intermediate quantities `p_win`, odds `b`, Kelly fraction
`f*` and the stake) or hold. -/
inductive Action : Type
  | Bet (side : Side) (pWin odds kelly stake : ℚ)
  | Hold (why : Reason)
deriving DecidableEq, Repr

/-- Tolerance `EPS = 1e-9` (manifold_gemini_autobet.py line 220). -/
def EPS : ℚ := 1 / 1000000000

/-- Threshold `MIN_EDGE = 0.01` (modular_manifold_bettor.py line 40); the same
constant appears inline as `0.01` in the other two scripts. -/
def MIN_EDGE : ℚ := 1 / 100

/-- manifold_gemini_autobet.py lines 237-255, the stage after the payout
odds have been computed: the `odds <= 1` guard, the Kelly fraction
`(p_win * odds - 1) / (odds - 1)`, the `kelly_percentage <= 0` guard,
`bet_amount = balance * kelly_percentage * KELLY_FRACTION`, the
`bet_amount >= 1` minimum and the clamp of the stake to `balance`. -/
def geminiAfterOdds (kf pWin odds : ℚ) (side : Side) (balance : ℚ) :
    Option Action :=
  if odds ≤ 1 then some (.Hold .nonProfitableOdds)
  else
    (qdiv? (pWin * odds - 1) (odds - 1)).bind fun kelly =>
      if kelly ≤ 0 then some (.Hold .nonPositiveKelly)
      else
        let bet := balance * kelly * kf
        if bet ≥ 1 then
          some (.Bet side pWin odds kelly (if bet > balance then balance else bet))
        else some (.Hold .stakeBelowMin)

/-- Decision logic of manifold_gemini_autobet.py lines 214-249: the
confidence-membership gate `gemini_confidence in MINIMUM_CONFIDENCE_TO_BET`,
`edge = gemini_prob - market_prob`, the `abs(edge) > 0.01` gate, the `EPS`
degenerate-odds guards, then `geminiAfterOdds`.  `none` models an uncaught
`ZeroDivisionError` (this variant never produces one: every division is
behind a guard). -/
def geminiDecide (minConf : Confidence) (kf : ℚ) (conf : Confidence)
    (pe pm balance : ℚ) : Option Action :=
  if conf ∈ minimumConfidenceToBet minConf then
    if |pe - pm| > MIN_EDGE then
      if pe - pm > 0 then
        if pm ≤ EPS then some (.Hold .degenerateOdds)
        else (qdiv? 1 pm).bind fun odds =>
          geminiAfterOdds kf pe odds .YES balance
      else
        if 1 - pm ≤ EPS then some (.Hold .degenerateOdds)
        else (qdiv? 1 (1 - pm)).bind fun odds =>
          geminiAfterOdds kf (1 - pe) odds .NO balance
    else some (.Hold .insufficientEdge)
  else some (.Hold .belowConfidence)

/-- unified_manifold_api.py lines 366-374 and
modular_manifold_bettor.py lines 415-425: the stage after the payout odds
have been computed in those two scripts.  Identical to `geminiAfterOdds`
except that there is no `kelly_percentage <= 0` guard. -/
def unifiedAfterOdds (kf pWin odds : ℚ) (side : Side) (balance : ℚ) :
    Option Action :=
  if odds ≤ 1 then some (.Hold .nonProfitableOdds)
  else
    (qdiv? (pWin * odds - 1) (odds - 1)).bind fun kelly =>
      let bet := balance * kelly * kf
      if bet ≥ 1 then
        some (.Bet side pWin odds kelly (if bet > balance then balance else bet))
      else some (.Hold .stakeBelowMin)

/-- Decision logic of unified_manifold_api.py lines 352-374:
`MINIMUM_CONFIDENCE_TO_BET = ["Medium", "High"]` and
`KELLY_FRACTION = 0.25` are hard-coded; there is **no** degenerate-odds
guard, so `odds = 1 / market_prob` (resp. `1 / (1 - market_prob)`) raises
`ZeroDivisionError` — modelled as `none` — when the divisor is zero. -/
def unifiedDecide (conf : Confidence) (pe pm balance : ℚ) : Option Action :=
  if conf ∈ [Confidence.Medium, Confidence.High] then
    if |pe - pm| > MIN_EDGE then
      if pe - pm > 0 then
        (qdiv? 1 pm).bind fun odds =>
          unifiedAfterOdds (1 / 4) pe odds .YES balance
      else
        (qdiv? 1 (1 - pm)).bind fun odds =>
          unifiedAfterOdds (1 / 4) (1 - pe) odds .NO balance
    else some (.Hold .insufficientEdge)
  else some (.Hold .belowConfidence)

/-- Decision logic of modular_manifold_bettor.py lines 391-425:
`MINIMUM_CONFIDENCE_TO_BET = ["Medium", "High"]`, `MIN_EDGE = 0.01` and
`KELLY_FRACTION = 0.25` are module constants; the degenerate-odds guards
are `market_prob <= 0` (YES side) and `market_prob >= 1` (NO side), so no
division is ever performed on a zero divisor. -/
def modularDecide (conf : Confidence) (pe pm balance : ℚ) : Option Action :=
  if conf ∈ [Confidence.Medium, Confidence.High] then
    if |pe - pm| > MIN_EDGE then
      if pe - pm > 0 then
        if pm ≤ 0 then some (.Hold .degenerateOdds)
        else (qdiv? 1 pm).bind fun odds =>
          unifiedAfterOdds (1 / 4) pe odds .YES balance
      else
        if pm ≥ 1 then some (.Hold .degenerateOdds)
        else (qdiv? 1 (1 - pm)).bind fun odds =>
          unifiedAfterOdds (1 / 4) (1 - pe) odds .NO balance
    else some (.Hold .insufficientEdge)
  else some (.Hold .belowConfidence)

/-- common.py lines 69-93, `place_bet`: the betting sink used by
manifold_gemini_autobet.py.  Returns `(accepted, filled_amount)`.
`exitFlag` is the global `exit_flag` read at entry, `dryRun` the
`--dry-run` toggle, `apiOk` whether the HTTP POST succeeds.  On success
(and on a dry run) the filled amount is exactly the requested `amount`. -/
def commonPlaceBet (exitFlag dryRun apiOk : Bool) (amount : ℚ) : Bool × ℚ :=
  if exitFlag then (false, 0)
  else if dryRun then (true, amount)
  else if apiOk then (true, amount)
  else (false, 0)

/-- modular_manifold_bettor.py lines 105-136, `place_bet`: the betting
sink of the modular script.  The requested amount is converted with
`bet_amount_int = max(1, int(round(amount)))` and, on success, that
integer is the filled amount reported back. -/
def modularPlaceBet (exitFlag apiOk : Bool) (amount : ℚ) : Bool × ℚ :=
  if exitFlag then (false, 0)
  else if apiOk then (true, (max 1 (pyRound amount) : ℤ))
  else (false, 0)

/-- The external world for one market iteration of a session loop: was
the market summary's slug present and the detail fetch successful, is the
market binary, the parsed `(probability, confidence)` estimate (`none`
when the model call failed, its output was unparsable, or the analysis
was cancelled mid-stream — stream_gemini_analysis returns `(None, None)`
when `exit_flag` is observed during streaming), the market's implied
probability `float(full_market.get('probability', 0))`, the `exit_flag`
value read inside `place_bet`, whether a dry run, and whether the bet
POST succeeds. -/
structure MarketEvent : Type where
  fetched : Bool
  binary : Bool
  estimate : Option (ℚ × Confidence)
  marketProb : ℚ
  exitAtBet : Bool
  dryRun : Bool
  apiOk : Bool

/-- One iteration of the modular_manifold_bettor.py session loop (lines
370-437) acting on the running balance: skipped markets and Hold
decisions leave the balance unchanged; a Bet decision calls
`modularPlaceBet` and, only when the attempt reports success, debits the
balance by the reported filled amount (`balance -= amount_bet`, line
428).  A `none` decision models an uncaught exception, which stops the
script without mutating the balance. -/
def modularStep (ev : MarketEvent) (balance : ℚ) : ℚ :=
  if ev.fetched && ev.binary then
    match ev.estimate with
    | none => balance
    | some (pe, conf) =>
      match modularDecide conf pe ev.marketProb balance with
      | some (.Bet _ _ _ _ stake) =>
        let r := modularPlaceBet ev.exitAtBet ev.apiOk stake
        if r.1 then balance - r.2 else balance
      | _ => balance
  else balance

/-- A whole modular session: the loop body folded over the per-market
events.  The real loop may `break` early on `exit_flag`; every execution
is therefore the fold over some prefix of the event list, and the
balance invariants proved below hold for every list, hence for every
prefix. -/
def modularSession (events : List MarketEvent) (balance : ℚ) : ℚ :=
  events.foldl (fun b ev => modularStep ev b) balance

/-- One iteration of the manifold_gemini_autobet.py session loop (lines
195-261), with `commonPlaceBet` as the sink (this script's `place_bet`
lives in common.py and supports dry runs). -/
def geminiStep (minConf : Confidence) (kf : ℚ) (ev : MarketEvent)
    (balance : ℚ) : ℚ :=
  if ev.fetched && ev.binary then
    match ev.estimate with
    | none => balance
    | some (pe, conf) =>
      match geminiDecide minConf kf conf pe ev.marketProb balance with
      | some (.Bet _ _ _ _ stake) =>
        let r := commonPlaceBet ev.exitAtBet ev.dryRun ev.apiOk stake
        if r.1 then balance - r.2 else balance
      | _ => balance
  else balance

/-- A JSON scalar as far as the market filter is concerned: a number or
some other (non-numeric) value carried by a string. -/
inductive JVal : Type
  | jnum (q : ℚ)
  | jstr (s : String)
deriving DecidableEq, Repr

/-- Python truthiness of an optional JSON field value: absent (`None`),
the number `0` and the empty string are falsy. -/
def jtruthy : Option JVal → Bool
  | none => false
  | some (.jnum q) => q ≠ 0
  | some (.jstr s) => s ≠ ""

/-- The fields of a market summary that the filter reads:
`m.get('isResolved')` (absent is treated as false by `not m.get(...)`)
and `m.get('closeTime')`.  `slug` tags the entry so distinct summaries
can be told apart. -/
structure MarketSummary : Type where
  slug : String
  isResolved : Bool
  closeTime : Option JVal
deriving DecidableEq, Repr

/-- The keep-predicate of the modular filter: the market is kept iff
`not m.get('isResolved')`, `m.get('closeTime')` is truthy and numeric,
and `now < close_time < cutoff` (times in epoch milliseconds; the
`datetime.fromtimestamp(ct / 1000)` conversion is strictly monotone, so
the comparison of the converted datetimes is the comparison of the raw
millisecond values). -/
def marketKeep (now horizon : ℚ) (m : MarketSummary) : Bool :=
  !m.isResolved && jtruthy m.closeTime &&
    match m.closeTime with
    | some (.jnum ct) => decide (now < ct) && decide (ct < now + horizon)
    | _ => false

/-- The market filter of modular_manifold_bettor.py lines 358-366: the
whole loop body is wrapped in `try: ... except Exception: continue`, so
an entry whose truthy `closeTime` is non-numeric (where
`m['closeTime'] / 1000` raises `TypeError`) is silently dropped. -/
def modularFilter (now horizon : ℚ) : List MarketSummary → List MarketSummary
  | [] => []
  | m :: ms =>
    if !m.isResolved && jtruthy m.closeTime then
      match m.closeTime with
      | some (.jnum ct) =>
        if now < ct ∧ ct < now + horizon then m :: modularFilter now horizon ms
        else modularFilter now horizon ms
      | _ => modularFilter now horizon ms
    else modularFilter now horizon ms

/-- The market filter of manifold_gemini_autobet.py lines 186-191 (the
same loop appears at unified_manifold_api.py lines 324-329): there is no
`try`/`except`, so on an entry whose truthy `closeTime` is non-numeric
the expression `m['closeTime'] / 1000` raises `TypeError` and the whole
scan aborts — modelled as `none`. -/
def geminiFilter (now horizon : ℚ) : List MarketSummary → Option (List MarketSummary)
  | [] => some []
  | m :: ms =>
    if !m.isResolved && jtruthy m.closeTime then
      match m.closeTime with
      | some (.jnum ct) =>
        (geminiFilter now horizon ms).map fun rest =>
          if now < ct ∧ ct < now + horizon then m :: rest else rest
      | _ => none
    else geminiFilter now horizon ms

/-- A row of the append-only audit log `bet_log.csv` (the timestamp
column, a wall-clock string, is omitted). -/
structure LogRow : Type where
  market_id : String
  question : String
  outcome : Side
  amount : ℚ
  model_name : String
  model_prob : ℚ
  model_confidence : Confidence
  market_prob : ℚ
  edge : ℚ
  dry_run : Bool
deriving DecidableEq, Repr

/-- common.py lines 97-117, `log_bet`: the row appended to the audit log,
whose `edge` field is
`model_prob - market_prob if outcome == "YES" else
(1 - model_prob) - (1 - market_prob)`. -/
def log_bet (market_id question : String) (outcome : Side) (amount : ℚ)
    (model_name : String) (model_prob : ℚ) (model_confidence : Confidence)
    (market_prob : ℚ) (dry_run : Bool) : LogRow :=
  { market_id := market_id
    question := question
    outcome := outcome
    amount := amount
    model_name := model_name
    model_prob := model_prob
    model_confidence := model_confidence
    market_prob := market_prob
    edge := if outcome = .YES then model_prob - market_prob
            else (1 - model_prob) - (1 - market_prob)
    dry_run := dry_run }

/-- An estimate event is in range when the probability the model reported
lies in `[0, 1]`, as the Probability Source contract requires. -/
def EstimateOK (ev : MarketEvent) : Prop :=
  match ev.estimate with
  | none => True
  | some (pe, _) => 0 ≤ pe ∧ pe ≤ 1

/-- A market summary whose `closeTime`, if it is a non-numeric value, is
falsy (so the unguarded filter's division is never attempted on it). -/
def CloseTimeOK (m : MarketSummary) : Prop :=
  ∀ s, m.closeTime = some (.jstr s) → s = ""

/-- The stake carried by an action, with a Hold (or an uncaught
exception) counting as stake 0. -/
def stakeOf : Option Action → ℚ
  | some (.Bet _ _ _ _ stake) => stake
  | _ => 0

/-- The stake the gemini decision engine requests, with a Hold (or an
exception) counting as stake 0. -/
def geminiStake (minConf : Confidence) (kf : ℚ) (conf : Confidence)
    (pe pm balance : ℚ) : ℚ :=
  stakeOf (geminiDecide minConf kf conf pe pm balance)

/-- The amount one modular loop iteration debits from the balance: the
filled amount reported by `modularPlaceBet` when a bet was decided and
the attempt reports success, and 0 otherwise. -/
def modularDebit (ev : MarketEvent) (balance : ℚ) : ℚ :=
  if ev.fetched && ev.binary then
    match ev.estimate with
    | none => 0
    | some (pe, conf) =>
      match modularDecide conf pe ev.marketProb balance with
      | some (.Bet _ _ _ _ stake) =>
        let r := modularPlaceBet ev.exitAtBet ev.apiOk stake
        if r.1 then r.2 else 0
      | _ => 0
  else 0

/-! ## Helper lemmas -/

lemma pyRound_le (x : ℚ) : (pyRound x : ℚ) ≤ x + 1 / 2 := by
  have hfl : (⌊x⌋ : ℚ) ≤ x := Int.floor_le x
  unfold pyRound
  by_cases h1 : x - (⌊x⌋ : ℚ) < 1 / 2
  · rw [if_pos h1]; linarith
  · rw [if_neg h1]
    by_cases h2 : 1 / 2 < x - (⌊x⌋ : ℚ)
    · rw [if_pos h2]; push_cast; linarith
    · rw [if_neg h2]
      have heq : x - (⌊x⌋ : ℚ) = 1 / 2 :=
        le_antisymm (not_lt.mp h2) (not_lt.mp h1)
      by_cases h3 : ⌊x⌋ % 2 = 0
      · rw [if_pos h3]; linarith
      · rw [if_neg h3]; push_cast; linarith

lemma one_le_max_pyRound (x : ℚ) : (1 : ℚ) ≤ ((max 1 (pyRound x) : ℤ) : ℚ) := by
  have : (1 : ℤ) ≤ max 1 (pyRound x) := le_max_left _ _
  exact_mod_cast this

lemma max_pyRound_le (x : ℚ) (hx : 1 / 2 ≤ x) :
    ((max 1 (pyRound x) : ℤ) : ℚ) ≤ x + 1 / 2 := by
  rcases max_cases (1 : ℤ) (pyRound x) with ⟨h, _⟩ | ⟨h, _⟩
  · rw [h]; push_cast; linarith
  · rw [h]; exact pyRound_le x

/-- With odds strictly above 1 and a win probability at most 1, the Kelly
fraction `(p_win * b - 1) / (b - 1)` is at most 1. -/
lemma kelly_le_one {pWin odds : ℚ} (h1 : 1 < odds) (h2 : pWin ≤ 1) :
    (pWin * odds - 1) / (odds - 1) ≤ 1 := by
  rw [div_le_one (by linarith)]
  nlinarith

/-- Inversion of `unifiedAfterOdds` at a `Bet` result. -/
lemma unifiedAfterOdds_bet {kf pWin odds bal : ℚ} {side side' : Side}
    {pw o k st : ℚ}
    (h : unifiedAfterOdds kf pWin odds side bal = some (.Bet side' pw o k st)) :
    1 < odds ∧ pw = pWin ∧ o = odds ∧ k = (pWin * odds - 1) / (odds - 1) ∧
      1 ≤ bal * k * kf ∧
      st = if bal * k * kf > bal then bal else bal * k * kf := by
  unfold unifiedAfterOdds at h
  split_ifs at h with hodds
  · simp at h
  have hgt : 1 < odds := lt_of_not_le hodds
  have hne : odds - 1 ≠ 0 := ne_of_gt (by linarith)
  simp only [qdiv?] at h
  rw [if_neg hne, Option.some_bind] at h
  by_cases hbet : bal * ((pWin * odds - 1) / (odds - 1)) * kf ≥ 1
  · rw [if_pos hbet] at h
    simp only [Option.some.injEq, Action.Bet.injEq] at h
    obtain ⟨-, hpw, ho, hk, hst⟩ := h
    refine ⟨hgt, hpw.symm, ho.symm, hk.symm, ?_, ?_⟩
    · rw [hk.symm]; exact hbet
    · rw [hk.symm]; exact hst.symm
  · rw [if_neg hbet] at h
    simp at h

/-- Inversion of `geminiAfterOdds` at a `Bet` result. -/
lemma geminiAfterOdds_bet {kf pWin odds bal : ℚ} {side side' : Side}
    {pw o k st : ℚ}
    (h : geminiAfterOdds kf pWin odds side bal = some (.Bet side' pw o k st)) :
    1 < odds ∧ pw = pWin ∧ o = odds ∧ k = (pWin * odds - 1) / (odds - 1) ∧
      0 < k ∧ 1 ≤ bal * k * kf ∧
      st = if bal * k * kf > bal then bal else bal * k * kf := by
  unfold geminiAfterOdds at h
  split_ifs at h with hodds
  · simp at h
  have hgt : 1 < odds := lt_of_not_le hodds
  have hne : odds - 1 ≠ 0 := ne_of_gt (by linarith)
  simp only [qdiv?] at h
  rw [if_neg hne, Option.some_bind] at h
  by_cases hkelly : (pWin * odds - 1) / (odds - 1) ≤ 0
  · rw [if_pos hkelly] at h
    simp at h
  rw [if_neg hkelly] at h
  by_cases hbet : bal * ((pWin * odds - 1) / (odds - 1)) * kf ≥ 1
  · rw [if_pos hbet] at h
    simp only [Option.some.injEq, Action.Bet.injEq] at h
    obtain ⟨-, hpw, ho, hk, hst⟩ := h
    refine ⟨hgt, hpw.symm, ho.symm, hk.symm, ?_, ?_, ?_⟩
    · rw [hk.symm]; exact lt_of_not_le hkelly
    · rw [hk.symm]; exact hbet
    · rw [hk.symm]; exact hst.symm
  · rw [if_neg hbet] at h
    simp at h

/-- A bound `Bet` result of `geminiAfterOdds` has payout odds above 1. -/
lemma gemini_bind_bet_odds {d : Option ℚ} {kf pw bal : ℚ} {s : Side}
    {side : Side} {pw' o k st : ℚ}
    (h : d.bind (fun odds => geminiAfterOdds kf pw odds s bal) =
      some (.Bet side pw' o k st)) : 1 < o := by
  rcases d with - | odds
  · simp at h
  · rw [Option.some_bind] at h
    obtain ⟨h1, -, ho, -⟩ := geminiAfterOdds_bet h
    exact ho ▸ h1

/-- A bound `Bet` result of `unifiedAfterOdds` has payout odds above 1. -/
lemma unified_bind_bet_odds {d : Option ℚ} {kf pw bal : ℚ} {s : Side}
    {side : Side} {pw' o k st : ℚ}
    (h : d.bind (fun odds => unifiedAfterOdds kf pw odds s bal) =
      some (.Bet side pw' o k st)) : 1 < o := by
  rcases d with - | odds
  · simp at h
  · rw [Option.some_bind] at h
    obtain ⟨h1, -, ho, -⟩ := unifiedAfterOdds_bet h
    exact ho ▸ h1

/-- Any `Bet` produced by `geminiDecide` has payout odds above 1. -/
lemma geminiDecide_bet_odds {minConf : Confidence} {kf : ℚ} {conf : Confidence}
    {pe pm bal : ℚ} {side : Side} {pw o k st : ℚ}
    (h : geminiDecide minConf kf conf pe pm bal = some (.Bet side pw o k st)) :
    1 < o := by
  unfold geminiDecide at h
  split_ifs at h
  all_goals first
  | exact gemini_bind_bet_odds h
  | simp at h

/-- Any `Bet` produced by `unifiedDecide` has payout odds above 1. -/
lemma unifiedDecide_bet_odds {conf : Confidence} {pe pm bal : ℚ}
    {side : Side} {pw o k st : ℚ}
    (h : unifiedDecide conf pe pm bal = some (.Bet side pw o k st)) :
    1 < o := by
  unfold unifiedDecide at h
  split_ifs at h
  all_goals first
  | exact unified_bind_bet_odds h
  | simp at h

/-- Any `Bet` produced by `modularDecide` has payout odds above 1. -/
lemma modularDecide_bet_odds {conf : Confidence} {pe pm bal : ℚ}
    {side : Side} {pw o k st : ℚ}
    (h : modularDecide conf pe pm bal = some (.Bet side pw o k st)) :
    1 < o := by
  unfold modularDecide at h
  split_ifs at h
  all_goals first
  | exact unified_bind_bet_odds h
  | simp at h

/-- Under the quarter-Kelly multiplier of the modular script, a win
probability at most 1 and a nonnegative balance, any stake the engine
decides lies in `[1, bal / 4]`. -/
lemma modularBet_stake_bounds {pWin odds bal : ℚ} {side side' : Side}
    {pw o k st : ℚ} (hpW : pWin ≤ 1) (hbal : 0 ≤ bal)
    (h : unifiedAfterOdds (1 / 4) pWin odds side bal =
      some (.Bet side' pw o k st)) :
    1 ≤ st ∧ st ≤ bal / 4 := by
  obtain ⟨hodds, -, -, hk, hbet, hst⟩ := unifiedAfterOdds_bet h
  have hkle : k ≤ 1 := hk ▸ kelly_le_one hodds hpW
  have hbound : bal * k * (1 / 4) ≤ bal / 4 := by nlinarith
  have hnot : ¬bal * k * (1 / 4) > bal := by nlinarith
  rw [hst, if_neg hnot]
  exact ⟨hbet, hbound⟩

/-- Bound-form of `modularBet_stake_bounds`. -/
lemma unified_bind_bet_stake {d : Option ℚ} {pw bal : ℚ} {s : Side}
    {side : Side} {pw' o k st : ℚ} (hpW : pw ≤ 1) (hbal : 0 ≤ bal)
    (h : d.bind (fun odds => unifiedAfterOdds (1 / 4) pw odds s bal) =
      some (.Bet side pw' o k st)) : 1 ≤ st ∧ st ≤ bal / 4 := by
  rcases d with - | odds
  · simp at h
  · rw [Option.some_bind] at h
    exact modularBet_stake_bounds hpW hbal h

/-- Any stake decided by the modular engine on an in-range estimate lies
in `[1, bal / 4]`. -/
lemma modularDecide_bet_stake {conf : Confidence} {pe pm bal : ℚ}
    {side : Side} {pw o k st : ℚ}
    (hpe0 : 0 ≤ pe) (hpe1 : pe ≤ 1) (hbal : 0 ≤ bal)
    (h : modularDecide conf pe pm bal = some (.Bet side pw o k st)) :
    1 ≤ st ∧ st ≤ bal / 4 := by
  unfold modularDecide at h
  split_ifs at h
  all_goals first
  | exact unified_bind_bet_stake hpe1 hbal h
  | exact unified_bind_bet_stake (by linarith : (1 : ℚ) - pe ≤ 1) hbal h
  | simp at h

/-- A successful `modularPlaceBet` fills `max 1 (round amount)`. -/
lemma modularPlaceBet_success {ex api : Bool} {amt filled : ℚ}
    (h : modularPlaceBet ex api amt = (true, filled)) :
    filled = ((max 1 (pyRound amt) : ℤ) : ℚ) := by
  unfold modularPlaceBet at h
  split_ifs at h
  · simp at h
  · simp only [Prod.mk.injEq] at h
    exact h.2.symm
  · simp at h

/-- One modular loop iteration keeps the balance in `[0, b]`: the debit,
when a bet fills, is `max 1 (round stake) ≤ stake + 1/2 ≤ b/4 + 1/2 ≤ b`. -/
lemma modularStep_bounds (ev : MarketEvent) (b : ℚ) (hb : 0 ≤ b)
    (hev : EstimateOK ev) : 0 ≤ modularStep ev b ∧ modularStep ev b ≤ b := by
  unfold modularStep
  by_cases hfb : (ev.fetched && ev.binary) = true
  swap
  · rw [if_neg hfb]; exact ⟨hb, le_refl b⟩
  rw [if_pos hfb]
  rcases hest : ev.estimate with - | ⟨pe, conf⟩
  · exact ⟨hb, le_refl b⟩
  have hpe : 0 ≤ pe ∧ pe ≤ 1 := by
    unfold EstimateOK at hev
    rw [hest] at hev
    exact hev
  dsimp only
  rcases hdec : modularDecide conf pe ev.marketProb b with - | act
  · exact ⟨hb, le_refl b⟩
  rcases act with ⟨side, pw, o, k, st⟩ | why
  swap
  · exact ⟨hb, le_refl b⟩
  obtain ⟨hst1, hst4⟩ := modularDecide_bet_stake hpe.1 hpe.2 hb hdec
  have hb4 : 4 ≤ b := by linarith
  have hfill := max_pyRound_le st (by linarith)
  have hfill1 := one_le_max_pyRound st
  dsimp only
  rcases hfate : modularPlaceBet ev.exitAtBet ev.apiOk st with ⟨ok, filled⟩
  dsimp only
  cases ok
  · simp only [Bool.false_eq_true, if_false]
    exact ⟨hb, le_refl b⟩
  · have hfe : filled = ((max 1 (pyRound st) : ℤ) : ℚ) :=
      modularPlaceBet_success hfate
    simp only [if_true]
    rw [hfe]
    constructor
    · linarith
    · linarith

/-- The balance invariant propagated along a whole modular session. -/
lemma modularSession_bounds (events : List MarketEvent) :
    ∀ b : ℚ, 0 ≤ b → (∀ ev ∈ events, EstimateOK ev) →
      0 ≤ modularSession events b ∧ modularSession events b ≤ b := by
  induction events with
  | nil =>
    intro b hb _
    simp only [modularSession, List.foldl_nil]
    exact ⟨hb, le_refl b⟩
  | cons ev evs ih =>
    intro b hb hev
    have h1 := modularStep_bounds ev b hb (hev ev (by simp))
    have h2 := ih (modularStep ev b) h1.1 fun e he => hev e (by simp [he])
    simp only [modularSession, List.foldl_cons] at h2 ⊢
    exact ⟨h2.1, le_trans h2.2 h1.2⟩


/-- Totality of `geminiAfterOdds`: every division it performs is behind a
guard that makes the divisor nonzero. -/
lemma geminiAfterOdds_isSome (kf pWin odds : ℚ) (side : Side) (bal : ℚ) :
    (geminiAfterOdds kf pWin odds side bal).isSome = true := by
  unfold geminiAfterOdds
  split_ifs with h
  · simp
  · have hne : odds - 1 ≠ 0 := ne_of_gt (by linarith [lt_of_not_le h])
    simp only [qdiv?]
    rw [if_neg hne, Option.some_bind]
    split_ifs <;> simp

/-- Totality of `unifiedAfterOdds`. -/
lemma unifiedAfterOdds_isSome (kf pWin odds : ℚ) (side : Side) (bal : ℚ) :
    (unifiedAfterOdds kf pWin odds side bal).isSome = true := by
  unfold unifiedAfterOdds
  split_ifs with h
  · simp
  · have hne : odds - 1 ≠ 0 := ne_of_gt (by linarith [lt_of_not_le h])
    simp only [qdiv?]
    rw [if_neg hne, Option.some_bind]
    split_ifs <;> simp

lemma gemini_bind_isSome {pm' : ℚ} (hne : pm' ≠ 0) (kf pw : ℚ) (s : Side)
    (bal : ℚ) :
    (((qdiv? 1 pm').bind fun odds => geminiAfterOdds kf pw odds s bal).isSome)
      = true := by
  simp only [qdiv?]
  rw [if_neg hne, Option.some_bind]
  exact geminiAfterOdds_isSome kf pw (1 / pm') s bal

lemma unified_bind_isSome {pm' : ℚ} (hne : pm' ≠ 0) (kf pw : ℚ) (s : Side)
    (bal : ℚ) :
    (((qdiv? 1 pm').bind fun odds => unifiedAfterOdds kf pw odds s bal).isSome)
      = true := by
  simp only [qdiv?]
  rw [if_neg hne, Option.some_bind]
  exact unifiedAfterOdds_isSome kf pw (1 / pm') s bal

/-- The gemini decision engine never raises: all divisions sit behind the
`EPS` guards and the `odds <= 1` guard. -/
lemma geminiDecide_isSome (minConf : Confidence) (kf : ℚ) (conf : Confidence)
    (pe pm bal : ℚ) :
    (geminiDecide minConf kf conf pe pm bal).isSome = true := by
  unfold geminiDecide
  split_ifs with h1 h2 h3 h4 h5
  all_goals first
  | exact gemini_bind_isSome
      (ne_of_gt (lt_trans (by norm_num [EPS]) (lt_of_not_le h4))) kf pe .YES bal
  | exact gemini_bind_isSome
      (ne_of_gt (lt_trans (by norm_num [EPS]) (lt_of_not_le h5))) kf (1 - pe)
      .NO bal
  | simp

/-- The modular decision engine never raises: its `market_prob <= 0` and
`market_prob >= 1` guards keep every divisor nonzero. -/
lemma modularDecide_isSome (conf : Confidence) (pe pm bal : ℚ) :
    (modularDecide conf pe pm bal).isSome = true := by
  unfold modularDecide
  split_ifs with h1 h2 h3 h4 h5
  all_goals first
  | exact unified_bind_isSome (ne_of_gt (lt_of_not_le h4)) (1 / 4) pe .YES bal
  | exact unified_bind_isSome (ne_of_gt (by linarith [lt_of_not_le h5]))
      (1 / 4) (1 - pe) .NO bal
  | simp

/-- The stake of `geminiAfterOdds` is monotone in the Kelly multiplier. -/
lemma geminiAfterOdds_stake_mono {kf1 kf2 pWin odds bal : ℚ} (s : Side)
    (hbal : 0 ≤ bal) (h0 : 0 ≤ kf1) (h12 : kf1 ≤ kf2) :
    stakeOf (geminiAfterOdds kf1 pWin odds s bal) ≤
      stakeOf (geminiAfterOdds kf2 pWin odds s bal) := by
  unfold geminiAfterOdds
  split_ifs with hodds
  · simp [stakeOf]
  have hne : odds - 1 ≠ 0 := ne_of_gt (by linarith [lt_of_not_le hodds])
  simp only [qdiv?]
  rw [if_neg hne, Option.some_bind, Option.some_bind]
  set k := (pWin * odds - 1) / (odds - 1) with hkdef
  by_cases hk : k ≤ 0
  · rw [if_pos hk, if_pos hk]
  rw [if_neg hk, if_neg hk]
  have hkpos : 0 < k := lt_of_not_le hk
  have hBK : 0 ≤ bal * k := mul_nonneg hbal hkpos.le
  have hbet12 : bal * k * kf1 ≤ bal * k * kf2 :=
    mul_le_mul_of_nonneg_left h12 hBK
  by_cases hb1 : bal * k * kf1 ≥ 1
  · have hb2 : bal * k * kf2 ≥ 1 := le_trans hb1 hbet12
    rw [if_pos hb1, if_pos hb2]
    simp only [stakeOf]
    by_cases hc1 : bal * k * kf1 > bal
    · rw [if_pos hc1]
      by_cases hc2 : bal * k * kf2 > bal
      · rw [if_pos hc2]
      · rw [if_neg hc2]; linarith
    · rw [if_neg hc1]
      by_cases hc2 : bal * k * kf2 > bal
      · rw [if_pos hc2]; linarith
      · rw [if_neg hc2]; exact hbet12
  · rw [if_neg hb1]
    by_cases hb2 : bal * k * kf2 ≥ 1
    · rw [if_pos hb2]
      simp only [stakeOf]
      by_cases hc2 : bal * k * kf2 > bal
      · rw [if_pos hc2]; linarith
      · rw [if_neg hc2]; linarith
    · rw [if_neg hb2]

lemma gemini_bind_stake_mono {d : Option ℚ} {kf1 kf2 pw bal : ℚ} {s : Side}
    (hbal : 0 ≤ bal) (h0 : 0 ≤ kf1) (h12 : kf1 ≤ kf2) :
    stakeOf (d.bind fun odds => geminiAfterOdds kf1 pw odds s bal) ≤
      stakeOf (d.bind fun odds => geminiAfterOdds kf2 pw odds s bal) := by
  rcases d with - | odds
  · simp [stakeOf]
  · rw [Option.some_bind, Option.some_bind]
    exact geminiAfterOdds_stake_mono s hbal h0 h12

/-- The modular filter is `List.filter` of the keep-predicate: it never
raises and preserves the input order (a filter's result is a sublist of
its input). -/
lemma modularFilter_eq_filter (now horizon : ℚ) :
    ∀ ms : List MarketSummary,
      modularFilter now horizon ms = ms.filter (marketKeep now horizon) := by
  intro ms
  induction ms with
  | nil => rfl
  | cons m ms ih =>
    rcases m with ⟨slug, isRes, ct⟩
    rcases ct with - | q | s
    · simp [modularFilter, List.filter_cons, marketKeep, jtruthy, ih]
    · by_cases h1 : isRes <;> by_cases h2 : (q : ℚ) = 0 <;>
        by_cases h3 : now < q <;> by_cases h4 : q < now + horizon <;>
        simp [modularFilter, List.filter_cons, marketKeep, jtruthy,
          h1, h2, h3, h4, ih]
    · by_cases h1 : isRes <;> by_cases h2 : s = "" <;>
        simp [modularFilter, List.filter_cons, marketKeep, jtruthy, h1, h2, ih]

/-- Characterisation of the keep-predicate: a market is kept iff it is
unresolved, its close time is present, numeric and nonzero, and lies
strictly between `now` and `now + horizon`. -/
lemma marketKeep_iff (now horizon : ℚ) (m : MarketSummary) :
    marketKeep now horizon m = true ↔
      m.isResolved = false ∧ ∃ ct : ℚ, m.closeTime = some (.jnum ct) ∧
        ct ≠ 0 ∧ now < ct ∧ ct < now + horizon := by
  rcases m with ⟨slug, isRes, ct⟩
  rcases ct with - | q | s
  · simp [marketKeep, jtruthy]
  · constructor
    · intro h
      simp only [marketKeep, jtruthy, Bool.and_eq_true, Bool.not_eq_true',
        decide_eq_true_eq] at h
      exact ⟨h.1.1, q, rfl, by simpa using h.1.2, h.2.1, h.2.2⟩
    · rintro ⟨h1, ct', hct', hne, hlt1, hlt2⟩
      injection hct' with h
      injection h with h
      subst h
      simp only [] at h1
      simp [marketKeep, jtruthy, h1, hne, hlt1, hlt2]
  · simp [marketKeep, jtruthy]

/-- On a list whose truthy close times are all numeric, the unguarded
(gemini) filter runs without raising and computes exactly what the
guarded modular filter computes. -/
lemma geminiFilter_eq (now horizon : ℚ) :
    ∀ ms : List MarketSummary, (∀ m ∈ ms, CloseTimeOK m) →
      geminiFilter now horizon ms = some (modularFilter now horizon ms) := by
  intro ms
  induction ms with
  | nil => intro _; rfl
  | cons m ms ih =>
    intro hok
    have hm := hok m (by simp)
    have hrest := ih fun e he => hok e (by simp [he])
    rcases m with ⟨slug, isRes, ct⟩
    rcases ct with - | q | s
    · simpa [geminiFilter, modularFilter, jtruthy] using hrest
    · by_cases h1 : isRes <;> by_cases h2 : (q : ℚ) = 0 <;>
        simp [geminiFilter, modularFilter, jtruthy, h1, h2, hrest]
    · have hs : s = "" := hm s rfl
      subst hs
      simpa [geminiFilter, modularFilter, jtruthy] using hrest

/-- A failed `modularPlaceBet` attempt reports a filled amount of 0. -/
lemma modularPlaceBet_failure {ex api : Bool} {amt : ℚ}
    (h : (modularPlaceBet ex api amt).1 = false) :
    (modularPlaceBet ex api amt).2 = 0 := by
  unfold modularPlaceBet at *
  split_ifs at h ⊢ <;> simp_all

/-- When the modular bet POST fails, the loop iteration leaves the
balance unchanged. -/
lemma modularStep_api_failure (ev : MarketEvent) (b : ℚ)
    (hapi : ev.apiOk = false) : modularStep ev b = b := by
  unfold modularStep
  by_cases hfb : (ev.fetched && ev.binary) = true
  swap
  · rw [if_neg hfb]
  rw [if_pos hfb]
  rcases hest : ev.estimate with - | ⟨pe, conf⟩
  · rfl
  dsimp only
  rcases hdec : modularDecide conf pe ev.marketProb b with - | act
  · rfl
  rcases act with ⟨side, pw, o, k, st⟩ | why
  swap
  · rfl
  simp only [modularPlaceBet, hapi]
  cases hex : ev.exitAtBet <;> simp [hex]

/-- A modular loop iteration debits the balance by exactly
`modularDebit`: the filled amount when a decided bet reports success,
and nothing otherwise. -/
lemma modularStep_eq_sub_debit (ev : MarketEvent) (b : ℚ) :
    modularStep ev b = b - modularDebit ev b := by
  unfold modularStep modularDebit
  by_cases hfb : (ev.fetched && ev.binary) = true
  swap
  · rw [if_neg hfb, if_neg hfb]; ring
  rw [if_pos hfb, if_pos hfb]
  rcases hest : ev.estimate with - | ⟨pe, conf⟩
  · simp
  dsimp only
  rcases hdec : modularDecide conf pe ev.marketProb b with - | act
  · simp
  rcases act with ⟨side, pw, o, k, st⟩ | why
  swap
  · simp
  dsimp only
  rcases hfate : modularPlaceBet ev.exitAtBet ev.apiOk st with ⟨ok, filled⟩
  cases ok <;> simp

/-- A market whose analysis produced no estimate (model failure,
unparsable output, or cancellation observed while streaming) leaves the
balance untouched. -/
lemma geminiStep_no_estimate (minConf : Confidence) (kf : ℚ)
    (ev : MarketEvent) (b : ℚ) (h : ev.estimate = none) :
    geminiStep minConf kf ev b = b := by
  unfold geminiStep
  rw [h]
  split_ifs <;> rfl

/-- With the exit flag set when `place_bet` runs, the attempt fails and
the balance is unchanged. -/
lemma geminiStep_exit (minConf : Confidence) (kf : ℚ) (ev : MarketEvent)
    (b : ℚ) (h : ev.exitAtBet = true) : geminiStep minConf kf ev b = b := by
  unfold geminiStep
  by_cases hfb : (ev.fetched && ev.binary) = true
  swap
  · rw [if_neg hfb]
  rw [if_pos hfb]
  rcases hest : ev.estimate with - | ⟨pe, conf⟩
  · rfl
  dsimp only
  rcases hdec : geminiDecide minConf kf conf pe ev.marketProb b with - | act
  · rfl
  rcases act with ⟨side, pw, o, k, st⟩ | why
  swap
  · rfl
  simp [commonPlaceBet, h]

/-! ## Claim theorems -/

/-- C1 counterexample: in the unified_manifold_api.py variant an
estimate that has passed the confidence gate (High is in the allowed
list) and the edge gate (edge 1/2 > 0.01) with implied probability
exactly 0 makes the decision computation divide by zero and raise
(result `none`), instead of holding with "degenerate odds". -/
theorem c1_counterexample_unified_raises :
    Confidence.High ∈ [Confidence.Medium, Confidence.High] ∧
    MIN_EDGE < (1 : ℚ) / 2 - 0 ∧
    unifiedDecide .High (1 / 2) 0 1000 = none := by
  refine ⟨by decide, by norm_num [MIN_EDGE], ?_⟩
  norm_num [unifiedDecide, unifiedAfterOdds, qdiv?, MIN_EDGE, lt_abs, abs_le]

/-- C1 amended: the degenerate-odds behaviour per variant.  In the
manifold_gemini_autobet.py engine the claim holds as stated: past the
confidence and edge gates, `p_m ≤ ε` (YES side) or `1 - p_m ≤ ε`
(NO side) yields Hold "degenerate odds" with no division performed, and
the computation never raises on any input.  The modular engine also
never raises (its guards sit at `p_m ≤ 0` / `p_m ≥ 1`, so for
`0 < p_m ≤ ε` it divides instead of holding).  The unified engine has no
guard — `c1_counterexample_unified_raises`. -/
theorem c1_degenerate_guards :
    (∀ (minConf : Confidence) (kf : ℚ) (conf : Confidence) (pe pm bal : ℚ),
      conf ∈ minimumConfidenceToBet minConf → MIN_EDGE < pe - pm →
      pm ≤ EPS →
      geminiDecide minConf kf conf pe pm bal = some (.Hold .degenerateOdds)) ∧
    (∀ (minConf : Confidence) (kf : ℚ) (conf : Confidence) (pe pm bal : ℚ),
      conf ∈ minimumConfidenceToBet minConf → MIN_EDGE < pm - pe →
      1 - pm ≤ EPS →
      geminiDecide minConf kf conf pe pm bal = some (.Hold .degenerateOdds)) ∧
    (∀ (minConf : Confidence) (kf : ℚ) (conf : Confidence) (pe pm bal : ℚ),
      (geminiDecide minConf kf conf pe pm bal).isSome = true) ∧
    (∀ (conf : Confidence) (pe pm bal : ℚ),
      (modularDecide conf pe pm bal).isSome = true) := by
  refine ⟨?_, ?_, geminiDecide_isSome, modularDecide_isSome⟩
  · intro minConf kf conf pe pm bal hconf hedge hdeg
    unfold geminiDecide
    rw [if_pos hconf,
      if_pos (show |pe - pm| > MIN_EDGE from
        lt_of_lt_of_le hedge (le_abs_self _)),
      if_pos (show pe - pm > 0 from by
        have : (0 : ℚ) < MIN_EDGE := by norm_num [MIN_EDGE]
        linarith),
      if_pos hdeg]
  · intro minConf kf conf pe pm bal hconf hedge hdeg
    unfold geminiDecide
    have hme : (0 : ℚ) < MIN_EDGE := by norm_num [MIN_EDGE]
    rw [if_pos hconf,
      if_pos (show |pe - pm| > MIN_EDGE from
        lt_of_lt_of_le hedge (by rw [abs_sub_comm]; exact le_abs_self _)),
      if_neg (show ¬pe - pm > 0 by linarith),
      if_pos hdeg]

/-- Witness for `c1_degenerate_guards` at `p_e = 1/2`, `p_m = 0`. -/
theorem c1_degenerate_guards_witness :
    Confidence.High ∈ minimumConfidenceToBet .Medium ∧
    MIN_EDGE < (1 : ℚ) / 2 - 0 ∧ (0 : ℚ) ≤ EPS ∧
    geminiDecide .Medium (1 / 4) .High (1 / 2) 0 1000 =
      some (.Hold .degenerateOdds) :=
  ⟨by decide, by norm_num [MIN_EDGE], by norm_num [EPS],
    c1_degenerate_guards.1 .Medium (1 / 4) .High (1 / 2) 0 1000 (by decide)
      (by norm_num [MIN_EDGE]) (by norm_num [EPS])⟩

/-- C2: starting from a nonnegative balance, after any sequence of
modular-session market iterations whose estimates are in `[0, 1]` (the
Probability Source contract), the balance stays in
`[0, initial_balance]`; and the amount a single iteration debits never
exceeds the balance held when the bet was placed. -/
theorem c2_balance_invariant (events : List MarketEvent) (b0 : ℚ)
    (hb : 0 ≤ b0) (hev : ∀ ev ∈ events, EstimateOK ev) :
    (0 ≤ modularSession events b0 ∧ modularSession events b0 ≤ b0) ∧
    ∀ (ev : MarketEvent) (b : ℚ), 0 ≤ b → EstimateOK ev →
      b - modularStep ev b ≤ b :=
  ⟨modularSession_bounds events b0 hb hev,
   fun ev b hb' hev' => by linarith [(modularStep_bounds ev b hb' hev').1]⟩

/-- Witness for `c2_balance_invariant`: one market, estimate 0.72 High,
market probability 0.5, successful bet from a balance of 1000. -/
theorem c2_balance_invariant_witness :
    (0 : ℚ) ≤ 1000 ∧
    (∀ ev ∈ [(⟨true, true, some (72 / 100, .High), 1 / 2, false, false,
        true⟩ : MarketEvent)], EstimateOK ev) ∧
    (0 ≤ modularSession
        [⟨true, true, some (72 / 100, .High), 1 / 2, false, false, true⟩]
        1000 ∧
      modularSession
        [⟨true, true, some (72 / 100, .High), 1 / 2, false, false, true⟩]
        1000 ≤ 1000) := by
  have hev : ∀ ev ∈ [(⟨true, true, some (72 / 100, .High), 1 / 2, false,
      false, true⟩ : MarketEvent)], EstimateOK ev := by
    intro ev hm
    rw [List.mem_singleton] at hm
    subst hm
    exact ⟨by norm_num, by norm_num⟩
  exact ⟨by norm_num, hev,
    (c2_balance_invariant _ 1000 (by norm_num) hev).1⟩

/-- C3 counterexample: the modular betting sink rounds the requested
stake to a whole number of mana, so a request of 1.6 fills 2 — more than
the requested stake, contradicting "never more than the requested
stake". -/
theorem c3_counterexample_fill_exceeds_request :
    modularPlaceBet false true (8 / 5) = (true, 2) ∧ (8 : ℚ) / 5 < 2 :=
  ⟨by norm_num [modularPlaceBet, pyRound], by norm_num⟩

/-- C3 amended: the modular sink fills
`max(1, round(stake))` — at most the requested stake plus half a unit
(for requests of at least half a unit) and possibly above the request;
a failed attempt fills 0; the common (gemini) sink fills exactly the
requested amount whenever it reports success; a failed modular attempt
leaves the session balance unchanged; and an iteration debits the
balance by exactly the reported filled amount when and only when the
attempt reports success (`modularDebit`). -/
theorem c3_fill_and_debit :
    (∀ (ex api : Bool) (amt : ℚ), 1 / 2 ≤ amt →
      (modularPlaceBet ex api amt).2 ≤ amt + 1 / 2) ∧
    (∀ (ex api : Bool) (amt : ℚ), (modularPlaceBet ex api amt).1 = false →
      (modularPlaceBet ex api amt).2 = 0) ∧
    (∀ (ex dr api : Bool) (amt : ℚ), (commonPlaceBet ex dr api amt).1 = true →
      (commonPlaceBet ex dr api amt).2 = amt) ∧
    (∀ (ev : MarketEvent) (b : ℚ), ev.apiOk = false →
      modularStep ev b = b) ∧
    (∀ (ev : MarketEvent) (b : ℚ),
      modularStep ev b = b - modularDebit ev b) := by
  refine ⟨?_, fun ex api amt h => modularPlaceBet_failure h, ?_,
    modularStep_api_failure, modularStep_eq_sub_debit⟩
  · intro ex api amt h
    unfold modularPlaceBet
    have hmax := max_pyRound_le amt h
    split_ifs <;> dsimp only <;> linarith
  · intro ex dr api amt h
    unfold commonPlaceBet at *
    split_ifs at h ⊢ <;> simp_all

/-- Witness for `c3_fill_and_debit` at a request of 1.6 mana. -/
theorem c3_fill_and_debit_witness :
    (1 : ℚ) / 2 ≤ 8 / 5 ∧
    (modularPlaceBet false true (8 / 5)).2 ≤ 8 / 5 + 1 / 2 :=
  ⟨by norm_num, c3_fill_and_debit.1 false true (8 / 5) (by norm_num)⟩

/-- C4 code bug: with `--min-confidence Low` the gate
`gemini_confidence in [args.min_confidence, "High"]` rejects a Medium
estimate even though Medium ranks at or above Low and the edge (0.10) is
well above the minimum: the engine holds "below confidence threshold"
where the documented ranking semantics would bet. -/
theorem c4_confidence_gate_membership_bug :
    geminiDecide .Low (1 / 4) .Medium (6 / 10) (1 / 2) 1000 =
      some (.Hold .belowConfidence) ∧
    Confidence.rank .Low ≤ Confidence.rank .Medium ∧
    MIN_EDGE < |(6 : ℚ) / 10 - 1 / 2| := by
  refine ⟨?_, by decide, by norm_num [MIN_EDGE, lt_abs]⟩
  rfl

/-- C5: none of the three decision-engine variants ever returns a
`Bet` whose payout odds are at or below break-even; every such case is
held at the `odds <= 1` guard. -/
theorem c5_no_bet_at_breakeven_odds :
    (∀ (minConf : Confidence) (kf : ℚ) (conf : Confidence) (pe pm bal : ℚ)
      (side : Side) (pw o k st : ℚ),
      geminiDecide minConf kf conf pe pm bal = some (.Bet side pw o k st) →
      1 < o) ∧
    (∀ (conf : Confidence) (pe pm bal : ℚ) (side : Side) (pw o k st : ℚ),
      unifiedDecide conf pe pm bal = some (.Bet side pw o k st) → 1 < o) ∧
    (∀ (conf : Confidence) (pe pm bal : ℚ) (side : Side) (pw o k st : ℚ),
      modularDecide conf pe pm bal = some (.Bet side pw o k st) → 1 < o) :=
  ⟨fun _ _ _ _ _ _ _ _ _ _ _ h => geminiDecide_bet_odds h,
   fun _ _ _ _ _ _ _ _ _ h => unifiedDecide_bet_odds h,
   fun _ _ _ _ _ _ _ _ _ h => modularDecide_bet_odds h⟩

/-- Witness for `c5_no_bet_at_breakeven_odds` on Scenario A. -/
theorem c5_no_bet_at_breakeven_odds_witness :
    geminiDecide .Medium (1 / 4) .High (72 / 100) (1 / 2) 1000 =
      some (.Bet .YES (72 / 100) 2 (44 / 100) 110) ∧ (1 : ℚ) < 2 :=
  ⟨by norm_num [geminiDecide, geminiAfterOdds, qdiv?, minimumConfidenceToBet,
      MIN_EDGE, EPS, lt_abs, abs_le],
   c5_no_bet_at_breakeven_odds.1 .Medium (1 / 4) .High (72 / 100) (1 / 2)
     1000 .YES (72 / 100) 2 (44 / 100) 110
     (by norm_num [geminiDecide, geminiAfterOdds, qdiv?,
       minimumConfidenceToBet, MIN_EDGE, EPS, lt_abs, abs_le])⟩

/-- C6: Scenario A — `p_e = 0.72`, `p_m = 0.50`, confidence High,
min_confidence Medium, kelly_fraction 0.25, balance 1000 produce a YES
bet with `p_win = 0.72`, odds `b = 2`, Kelly fraction `f* = 0.44` and
stake `1000 * 0.44 * 0.25 = 110`. -/
theorem c6_scenarioA :
    geminiDecide .Medium (1 / 4) .High (72 / 100) (1 / 2) 1000 =
      some (.Bet .YES (72 / 100) 2 (44 / 100) 110) := by
  norm_num [geminiDecide, geminiAfterOdds, qdiv?, minimumConfidenceToBet,
    MIN_EDGE, EPS, lt_abs, abs_le]

/-- C7 counterexample: the manifold_gemini_autobet.py market scan has
no `try`/`except`, so a summary whose `closeTime` is a truthy non-numeric
value makes `m['closeTime'] / 1000` raise `TypeError` (result `none`)
instead of being silently excluded. -/
theorem c7_counterexample_filter_raises :
    geminiFilter 0 100 [⟨"bad", false, some (.jstr "oops")⟩] = none := by
  simp [geminiFilter, jtruthy]

/-- C7 amended: the modular variant's filter satisfies the claim in
full — it is `List.filter` of a pure keep-predicate (hence
order-preserving and total, raising on nothing), and the predicate holds
iff the market is unresolved with a present, truthy (nonzero) numeric
close time strictly between `now` and `now + horizon`.  The gemini/unified
variant computes the same list but only on inputs whose truthy close
times are numeric; on others it raises
(`c7_counterexample_filter_raises`). -/
theorem c7_filter_characterisation :
    (∀ (now horizon : ℚ) (ms : List MarketSummary),
      modularFilter now horizon ms = ms.filter (marketKeep now horizon)) ∧
    (∀ (now horizon : ℚ) (m : MarketSummary),
      marketKeep now horizon m = true ↔
        m.isResolved = false ∧ ∃ ct : ℚ, m.closeTime = some (.jnum ct) ∧
          ct ≠ 0 ∧ now < ct ∧ ct < now + horizon) ∧
    (∀ (now horizon : ℚ) (ms : List MarketSummary),
      (∀ m ∈ ms, CloseTimeOK m) →
      geminiFilter now horizon ms = some (modularFilter now horizon ms)) :=
  ⟨modularFilter_eq_filter, marketKeep_iff, geminiFilter_eq⟩

/-- Witness for `c7_filter_characterisation` on a two-element list. -/
theorem c7_filter_characterisation_witness :
    (∀ m ∈ [(⟨"good", false, some (.jnum 50)⟩ : MarketSummary),
        ⟨"closed", true, some (.jnum 50)⟩], CloseTimeOK m) ∧
    geminiFilter 0 100
        [⟨"good", false, some (.jnum 50)⟩, ⟨"closed", true, some (.jnum 50)⟩] =
      some (modularFilter 0 100
        [⟨"good", false, some (.jnum 50)⟩, ⟨"closed", true, some (.jnum 50)⟩]) := by
  have hok : ∀ m ∈ [(⟨"good", false, some (.jnum 50)⟩ : MarketSummary),
      ⟨"closed", true, some (.jnum 50)⟩], CloseTimeOK m := by
    intro m hm s hs
    simp only [List.mem_cons, List.mem_singleton, List.not_mem_nil,
      or_false] at hm
    rcases hm with rfl | rfl <;> simp at hs
  exact ⟨hok, c7_filter_characterisation.2.2 0 100 _ hok⟩

/-- C8: with all other inputs fixed, a nonnegative balance and a
nonnegative Kelly multiplier, increasing the multiplier never decreases
the stake the gemini engine returns (Hold counting as stake 0, stakes
clamped to the balance). -/
theorem c8_stake_monotone_in_kelly_fraction (minConf conf : Confidence)
    (pe pm b kf1 kf2 : ℚ) (hb : 0 ≤ b) (h0 : 0 ≤ kf1) (h12 : kf1 ≤ kf2) :
    geminiStake minConf kf1 conf pe pm b ≤
      geminiStake minConf kf2 conf pe pm b := by
  unfold geminiStake geminiDecide
  split_ifs
  all_goals first
  | exact gemini_bind_stake_mono hb h0 h12
  | simp [stakeOf]

/-- Witness for `c8_stake_monotone_in_kelly_fraction`: quarter- versus
half-Kelly on Scenario A (stakes 110 and 220). -/
theorem c8_stake_monotone_witness :
    (0 : ℚ) ≤ 1000 ∧ (0 : ℚ) ≤ 1 / 4 ∧ (1 : ℚ) / 4 ≤ 1 / 2 ∧
    geminiStake .Medium (1 / 4) .High (72 / 100) (1 / 2) 1000 ≤
      geminiStake .Medium (1 / 2) .High (72 / 100) (1 / 2) 1000 :=
  ⟨by norm_num, by norm_num, by norm_num,
   c8_stake_monotone_in_kelly_fraction .Medium .High (72 / 100) (1 / 2)
     1000 (1 / 4) (1 / 2) (by norm_num) (by norm_num) (by norm_num)⟩

/-- C9: a bet placement attempted with the cancellation flag set
reports failure with a filled amount of 0, and the session balance is
never debited; a market whose analysis was cancelled mid-flight (no
estimate) never results in a debit. -/
theorem c9_cancellation_never_debits :
    (∀ (dr api : Bool) (amt : ℚ),
      commonPlaceBet true dr api amt = (false, 0)) ∧
    (∀ (minConf : Confidence) (kf : ℚ) (ev : MarketEvent) (b : ℚ),
      ev.estimate = none → geminiStep minConf kf ev b = b) ∧
    (∀ (minConf : Confidence) (kf : ℚ) (ev : MarketEvent) (b : ℚ),
      ev.exitAtBet = true → geminiStep minConf kf ev b = b) :=
  ⟨fun dr api amt => by unfold commonPlaceBet; rw [if_pos rfl],
   geminiStep_no_estimate, geminiStep_exit⟩

/-- Witness for `c9_cancellation_never_debits`: the flag is set when the
bet for Scenario A would be placed, and the balance stays 1000. -/
theorem c9_cancellation_witness :
    (⟨true, true, some (72 / 100, .High), 1 / 2, true, false, true⟩ :
        MarketEvent).exitAtBet = true ∧
    geminiStep .Medium (1 / 4)
        ⟨true, true, some (72 / 100, .High), 1 / 2, true, false, true⟩
        1000 = 1000 :=
  ⟨rfl, c9_cancellation_never_debits.2.2 .Medium (1 / 4) _ 1000 rfl⟩

/-- C10: the `edge` column `log_bet` writes is
`model_prob - market_prob` for a YES bet and
`(1 - model_prob) - (1 - market_prob) = market_prob - model_prob` for a
NO bet — the chosen side's edge, the negation of the engine's
`p_e - p_m` on NO bets. -/
theorem c10_log_edge (mid q : String) (amount : ℚ) (name : String)
    (mp : ℚ) (mc : Confidence) (mkt : ℚ) (dr : Bool) :
    (log_bet mid q .YES amount name mp mc mkt dr).edge = mp - mkt ∧
    (log_bet mid q .NO amount name mp mc mkt dr).edge =
      (1 - mp) - (1 - mkt) ∧
    (log_bet mid q .NO amount name mp mc mkt dr).edge = mkt - mp ∧
    (log_bet mid q .NO amount name mp mc mkt dr).edge = -(mp - mkt) := by
  refine ⟨?_, ?_, ?_, ?_⟩ <;> simp only [log_bet, if_pos, if_neg,
    reduceCtorEq, reduceIte] <;> ring

end ManifoldBet
